import Mathlib

/-!
# Shallow embedding of the uniapp university enrollment manager

This file embeds the core model classes of the repository
(`models/grading.py`, `models/enrollment.py`, `models/student.py`,
`models/auth.py`, `models/validation.py`, `models/admin.py`,
`models/session.py`, `models/session_manager.py`) as executable Lean
definitions and proves properties of them.

Modelling conventions:
* Python `int` marks are `Int`.
* Python strings are `String` (ASCII character classes: the regex classes
  `[A-Z]`, `[a-zA-Z]`, `\d` are modelled with `Char.isUpper`, `Char.isAlpha`,
  `Char.isDigit`).
* `random.randint` / `random.choice` draws are passed in as explicit
  parameters, so randomized operations become deterministic functions of the
  drawn value.
* `datetime.now()` is passed in as an explicit integer timestamp.
* The SHA-256 hex digest from `hashlib` is an external library primitive; it
  is modelled as a function parameter (see `hash_password`).
* Mutation of `self` becomes explicit state passing: a Python method that
  mutates the object and returns `r` becomes a Lean function returning the
  updated object paired with `r`.
-/

namespace UniApp

/-! ## Grading (`models/grading.py`)

`GradingService.grade_rules` is a dict iterated in insertion order; the
first matching inclusive range wins, and a mark matching no range falls
through to `'Z'`. -/

/-- The `grade_rules` table of `GradingService.__init__`, in Python dict
insertion order: grade, minimum mark, maximum mark. -/
def grade_rules : List (String × Int × Int) :=
  [("Z", 0, 49), ("P", 50, 64), ("C", 65, 74), ("D", 75, 84), ("HD", 85, 100)]

/-- The lookup loop of `GradingService.calculate_grade`: return the first
grade whose inclusive range contains the mark. -/
def lookupGrade (rules : List (String × Int × Int)) (mark : Int) : Option String :=
  match rules with
  | [] => none
  | (g, lo, hi) :: rest =>
      if lo ≤ mark ∧ mark ≤ hi then some g else lookupGrade rest mark

/-- `GradingService.calculate_grade(mark)`: first matching rule, defaulting
to `"Z"` when no range matches. -/
def calculate_grade (mark : Int) : String :=
  (lookupGrade grade_rules mark).getD "Z"

example : calculate_grade 49 = "Z" := by decide
example : calculate_grade 50 = "P" := by decide
example : calculate_grade 64 = "P" := by decide
example : calculate_grade 65 = "C" := by decide
example : calculate_grade 74 = "C" := by decide
example : calculate_grade 75 = "D" := by decide
example : calculate_grade 84 = "D" := by decide
example : calculate_grade 85 = "HD" := by decide
example : calculate_grade 100 = "HD" := by decide
example : calculate_grade 101 = "Z" := by decide
example : calculate_grade (-1) = "Z" := by decide

/-- Helper characterization of `calculate_grade` as a chain of range tests. -/
theorem calculate_grade_eq (m : Int) :
    calculate_grade m =
      if 0 ≤ m ∧ m ≤ 49 then "Z"
      else if 50 ≤ m ∧ m ≤ 64 then "P"
      else if 65 ≤ m ∧ m ≤ 74 then "C"
      else if 75 ≤ m ∧ m ≤ 84 then "D"
      else if 85 ≤ m ∧ m ≤ 100 then "HD"
      else "Z" := by
  simp only [calculate_grade, grade_rules, lookupGrade]
  split_ifs <;> simp_all

/-- C2: for every integer mark `m` in `[0,100]`, `calculate_grade m` is the
unique grade of the inclusive bands Z:[0,49], P:[50,64], C:[65,74],
D:[75,84], HD:[85,100] (in particular 49 ↦ Z, 50 ↦ P, 64 ↦ P, 65 ↦ C,
74 ↦ C, 75 ↦ D, 84 ↦ D, 85 ↦ HD), and every mark outside `[0,100]` maps
to Z. -/
theorem calculate_grade_bands (m : Int) :
    ((0 ≤ m ∧ m ≤ 49) ↔ calculate_grade m = "Z" ∧ (0 ≤ m ∧ m ≤ 100)) ∧
    ((50 ≤ m ∧ m ≤ 64) ↔ calculate_grade m = "P") ∧
    ((65 ≤ m ∧ m ≤ 74) ↔ calculate_grade m = "C") ∧
    ((75 ≤ m ∧ m ≤ 84) ↔ calculate_grade m = "D") ∧
    ((85 ≤ m ∧ m ≤ 100) ↔ calculate_grade m = "HD") ∧
    ((m < 0 ∨ 100 < m) → calculate_grade m = "Z") ∧
    (calculate_grade m = "Z" ∨ calculate_grade m = "P" ∨ calculate_grade m = "C" ∨
      calculate_grade m = "D" ∨ calculate_grade m = "HD") := by
  rw [calculate_grade_eq]
  split_ifs <;> simp_all <;> omega

/-- Witness for `calculate_grade_bands`: instantiating at the boundary mark
85 and discharging the out-of-range hypothesis at mark 101. -/
theorem calculate_grade_bands_witness :
    calculate_grade 85 = "HD" ∧ calculate_grade 101 = "Z" :=
  ⟨(calculate_grade_bands 85).2.2.2.2.1.mp (by decide),
   (calculate_grade_bands 101).2.2.2.2.2.1 (by decide)⟩

/-! ## Enrollment records (`models/enrollment.py`) -/

/-- The fields of `Enrollment` relevant to the model (`enrollment_date` is a
wall-clock timestamp and plays no role in the claims). -/
structure Enrollment where
  student_id : String
  subject_id : String
  mark : Int
  grade : String
  deriving DecidableEq, Repr

/-- `Enrollment.__init__(student_id, subject_id, mark=None, grade=None)`.
`randMark` models the `random.randint(25, 100)` draw.  The Python bodies are
`self.mark = mark or random.randint(25, 100)` and
`self.grade = grade or GradingService().calculate_grade(self.mark)`: the
`or` falls through to the right operand when the left is falsy, i.e. when
`mark` is `None` *or the integer 0*, and when `grade` is `None` or the
empty string. -/
def Enrollment.init (student_id subject_id : String) (mark : Option Int)
    (grade : Option String) (randMark : Int) : Enrollment :=
  let m : Int := match mark with
    | some v => if v ≠ 0 then v else randMark
    | none => randMark
  let g : String := match grade with
    | some s => if s ≠ "" then s else calculate_grade m
    | none => calculate_grade m
  { student_id := student_id, subject_id := subject_id, mark := m, grade := g }

/-! ## Subjects (`models/subject.py`) -/

/-- `Subject` (the `description`/`credits` fields play no role in the
claims). -/
structure Subject where
  subject_id : String
  name : String
  deriving DecidableEq, Repr

/-! ## Students (`models/student.py`) -/

/-- `Student`: identification fields plus the mutable `enrollments` list. -/
structure Student where
  student_id : String
  name : String
  email : String
  password_hash : String
  enrollments : List Enrollment
  deriving DecidableEq, Repr

/-- `Student.__init__`: a freshly constructed student has an empty
enrollments list. -/
def Student.init (student_id name email password_hash : String) : Student :=
  { student_id := student_id, name := name, email := email,
    password_hash := password_hash, enrollments := [] }

/-- `Student.enroll(subject)`: fail at the 4-subject cap, fail on a
duplicate `subject_id`, otherwise append a fresh `Enrollment` (whose mark
is the random draw `randMark`, grade derived from it) and succeed.
Returns the updated student and the boolean result. -/
def Student.enroll (s : Student) (subject : Subject) (randMark : Int) :
    Student × Bool :=
  if s.enrollments.length ≥ 4 then (s, false)
  else if s.enrollments.any (fun e => e.subject_id == subject.subject_id) then (s, false)
  else ({ s with enrollments :=
            s.enrollments ++ [Enrollment.init s.student_id subject.subject_id none none randMark] },
        true)

/-- `Student.enroll_random(available_subjects)`: nothing at the cap;
otherwise filter the catalog down to subjects not already enrolled
(preserving catalog order, as the Python loop does); nothing if none are
eligible; otherwise enroll the subject `random.choice` picks — modelled by
the index `choice % eligible.length` into the eligible list.  Returns the
updated student and the optionally selected subject. -/
def Student.enroll_random (s : Student) (available : List Subject)
    (choice : Nat) (randMark : Int) : Student × Option Subject :=
  if s.enrollments.length ≥ 4 then (s, none)
  else
    let enrolledIds := s.enrollments.map (fun e => e.subject_id)
    let eligible := available.filter (fun subj => ¬ enrolledIds.contains subj.subject_id)
    match eligible.get? (choice % eligible.length) with
    | none => (s, none)
    | some sel =>
        let r := s.enroll sel randMark
        if r.2 then (r.1, some sel) else (r.1, none)

/-- `Student.remove_subject`'s scan over the list: delete the first
enrollment with the given `subject_id`, report whether one was found. -/
def removeFirst (l : List Enrollment) (sid : String) : List Enrollment × Bool :=
  match l with
  | [] => ([], false)
  | e :: rest =>
      if e.subject_id == sid then (rest, true)
      else
        let r := removeFirst rest sid
        (e :: r.1, r.2)

/-- `Student.remove_subject(subject_id)`: remove the first matching
enrollment. -/
def Student.remove_subject (s : Student) (sid : String) : Student × Bool :=
  let r := removeFirst s.enrollments sid
  ({ s with enrollments := r.1 }, r.2)

/-! ## The enrollment-list invariant (C1) -/

/-- One call against a `Student`'s enrollment list: `enroll`,
`enroll_random` or `remove_subject`, with the random draws of that call
made explicit. -/
inductive StudentOp where
  | enroll (subject : Subject) (randMark : Int)
  | enrollRandom (available : List Subject) (choice : Nat) (randMark : Int)
  | removeSubject (subject_id : String)
  deriving Repr

/-- Apply one call to a student, keeping the updated student. -/
def Student.applyOp (s : Student) : StudentOp → Student
  | .enroll subj r => (s.enroll subj r).1
  | .enrollRandom av c r => (s.enroll_random av c r).1
  | .removeSubject sid => (s.remove_subject sid).1

/-- Apply a sequence of calls in order. -/
def Student.applyOps (s : Student) (ops : List StudentOp) : Student :=
  ops.foldl Student.applyOp s

/-- The enrollment-list invariant: at most 4 records, pairwise distinct
`subject_id`s. -/
def enrollInvariant (s : Student) : Prop :=
  s.enrollments.length ≤ 4 ∧ (s.enrollments.map (fun e => e.subject_id)).Nodup

instance (s : Student) : Decidable (enrollInvariant s) := by
  unfold enrollInvariant; infer_instance

/-- `enroll` preserves the invariant. -/
theorem enroll_preserves (s : Student) (subj : Subject) (r : Int)
    (h : enrollInvariant s) : enrollInvariant (s.enroll subj r).1 := by
  obtain ⟨hlen, hnd⟩ := h
  unfold Student.enroll
  split
  · exact ⟨hlen, hnd⟩
  · split
    · exact ⟨hlen, hnd⟩
    · next hcap hdup =>
      refine ⟨?_, ?_⟩
      · simp only [List.length_append, List.length_singleton]
        omega
      · simp only [List.map_append, List.map_cons, List.map_nil, Enrollment.init]
        rw [List.nodup_append]
        refine ⟨hnd, List.nodup_singleton _, ?_⟩
        intro x hx hy
        simp only [List.mem_singleton] at hy
        subst hy
        simp only [List.mem_map] at hx
        obtain ⟨e, he, hid⟩ := hx
        exact hdup (List.any_eq_true.mpr ⟨e, he, by simp [hid]⟩)

/-- `enroll_random` preserves the invariant (its state change goes through
`enroll`). -/
theorem enroll_random_preserves (s : Student) (av : List Subject) (c : Nat)
    (r : Int) (h : enrollInvariant s) :
    enrollInvariant (s.enroll_random av c r).1 := by
  unfold Student.enroll_random
  split
  · exact h
  · simp only []
    split
    · exact h
    · split <;> exact enroll_preserves s _ r h

/-- `removeFirst` returns a sublist of its input. -/
theorem removeFirst_sublist (l : List Enrollment) (sid : String) :
    (removeFirst l sid).1.Sublist l := by
  induction l with
  | nil => simp [removeFirst]
  | cons e rest ih =>
      unfold removeFirst
      split
      · exact List.sublist_cons_self e rest
      · exact List.Sublist.cons₂ e ih

/-- `remove_subject` preserves the invariant. -/
theorem remove_subject_preserves (s : Student) (sid : String)
    (h : enrollInvariant s) : enrollInvariant (s.remove_subject sid).1 := by
  obtain ⟨hlen, hnd⟩ := h
  have hsub := removeFirst_sublist s.enrollments sid
  exact ⟨le_trans hsub.length_le hlen,
    (hnd.sublist (hsub.map (fun e => e.subject_id)))⟩

/-- Any single call preserves the invariant. -/
theorem applyOp_preserves (s : Student) (op : StudentOp)
    (h : enrollInvariant s) : enrollInvariant (s.applyOp op) := by
  cases op with
  | enroll subj r => exact enroll_preserves s subj r h
  | enrollRandom av c r => exact enroll_random_preserves s av c r h
  | removeSubject sid => exact remove_subject_preserves s sid h

/-- Any call sequence preserves the invariant. -/
theorem applyOps_preserves (s : Student) (ops : List StudentOp)
    (h : enrollInvariant s) : enrollInvariant (s.applyOps ops) := by
  induction ops generalizing s with
  | nil => exact h
  | cons op rest ih => exact ih _ (applyOp_preserves s op h)

/-- C1: starting from a freshly constructed `Student` (empty enrollment
list), after any sequence of `enroll`, `enroll_random` and `remove_subject`
calls the enrollment list holds at most 4 records and no two records share
a `subject_id`. -/
theorem student_enrollments_invariant (sid n em ph : String)
    (ops : List StudentOp) :
    ((Student.init sid n em ph).applyOps ops).enrollments.length ≤ 4 ∧
    (((Student.init sid n em ph).applyOps ops).enrollments.map
      (fun e => e.subject_id)).Nodup :=
  applyOps_preserves (Student.init sid n em ph) ops (by simp [enrollInvariant, Student.init])

/-! ## Enrollment mark storage (C4)

`Enrollment.__init__` evaluates `mark or random.randint(25, 100)`: Python's
`or` takes the right operand whenever the left is falsy, and the integer 0
is falsy, so a *supplied* mark of 0 is replaced by a fresh random draw. -/

/-- C4 counterexample: constructing an `Enrollment` with the supplied mark 0
(which lies in `[0,100]`) under a random draw of 25 stores 25, not the
supplied mark 0. -/
theorem enrollment_mark_zero_counterexample :
    (Enrollment.init "s1" "sub1" (some 0) none 25).mark = 25 ∧
    (Enrollment.init "s1" "sub1" (some 0) none 25).mark ≠ 0 := by
  constructor <;> decide

/-- C4 (amended): for every supplied mark `m` in `[1,100]` the constructed
enrollment stores exactly `m`; the random draw (from `[25,100]`) is stored
when no mark is supplied, and also when the supplied mark is 0. -/
theorem enrollment_mark_stored (sid subj : String) (g : Option String)
    (m randMark : Int) (h1 : 1 ≤ m) (h2 : m ≤ 100) :
    (Enrollment.init sid subj (some m) g randMark).mark = m ∧
    (Enrollment.init sid subj none g randMark).mark = randMark ∧
    (Enrollment.init sid subj (some 0) g randMark).mark = randMark := by
  have hm : m ≠ 0 := by omega
  simp [Enrollment.init, hm]

/-- Witness for `enrollment_mark_stored` at mark 7 with random draw 30. -/
theorem enrollment_mark_stored_witness :
    (Enrollment.init "s1" "sub1" (some 7) none 30).mark = 7 ∧
    (Enrollment.init "s1" "sub1" none none 30).mark = 30 ∧
    (Enrollment.init "s1" "sub1" (some 0) none 30).mark = 30 :=
  enrollment_mark_stored "s1" "sub1" none 7 30 (by decide) (by decide)

/-! ## Random enrollment (C7) -/

/-- Helper: `enroll` fails exactly when the student is at the cap or already
holds the subject; on success it appends exactly one fresh enrollment. -/
theorem enroll_spec (s : Student) (subj : Subject) (r : Int) :
    s.enroll subj r =
      if 4 ≤ s.enrollments.length ∨
          subj.subject_id ∈ s.enrollments.map (fun e => e.subject_id)
      then (s, false)
      else ({ s with enrollments :=
                s.enrollments ++ [Enrollment.init s.student_id subj.subject_id none none r] },
            true) := by
  unfold Student.enroll
  by_cases h1 : s.enrollments.length ≥ 4
  · rw [if_pos h1, if_pos (Or.inl h1)]
  · rw [if_neg h1]
    by_cases h2 : s.enrollments.any (fun e => e.subject_id == subj.subject_id) = true
    · rw [if_pos h2, if_pos]
      right
      rw [List.any_eq_true] at h2
      obtain ⟨e, he, heq⟩ := h2
      exact List.mem_map.mpr ⟨e, he, by simpa using heq⟩
    · rw [if_neg h2, if_neg]
      rintro (hc | hm)
      · exact h1 hc
      · obtain ⟨e, he, heq⟩ := List.mem_map.mp hm
        exact h2 (List.any_eq_true.mpr ⟨e, he, by simpa using heq⟩)

/-- C7: `enroll_random` returns nothing exactly when the student is at the
4-subject cap or every catalog `subject_id` is already enrolled (and then
leaves the student unchanged); otherwise it returns a catalog subject the
student was not enrolled in and appends exactly that subject's enrollment. -/
theorem enroll_random_correct (s : Student) (available : List Subject)
    (choice : Nat) (randMark : Int) :
    ((s.enroll_random available choice randMark).2 = none ↔
      (4 ≤ s.enrollments.length ∨
        ∀ subj ∈ available,
          subj.subject_id ∈ s.enrollments.map (fun e => e.subject_id))) ∧
    ((s.enroll_random available choice randMark).2 = none →
      (s.enroll_random available choice randMark).1 = s) ∧
    (∀ sel, (s.enroll_random available choice randMark).2 = some sel →
      sel ∈ available ∧
      sel.subject_id ∉ s.enrollments.map (fun e => e.subject_id) ∧
      (s.enroll_random available choice randMark).1.enrollments =
        s.enrollments ++ [Enrollment.init s.student_id sel.subject_id none none randMark]) := by
  unfold Student.enroll_random
  by_cases hcap : s.enrollments.length ≥ 4
  · rw [if_pos hcap]
    exact ⟨by simp [hcap], by simp, by simp⟩
  · rw [if_neg hcap]
    simp only []
    set enrolledIds := s.enrollments.map (fun e => e.subject_id) with hIds
    set eligible :=
      available.filter (fun subj => ¬ enrolledIds.contains subj.subject_id) with hE
    split
    · next hnone =>
      rw [List.get?_eq_none] at hnone
      have hlen0 : eligible.length = 0 := by
        by_contra hne
        exact absurd hnone
          (not_le.mpr (Nat.mod_lt choice (Nat.pos_of_ne_zero hne)))
      have hnil : available.filter
          (fun subj => ¬ enrolledIds.contains subj.subject_id) = [] :=
        hE ▸ List.length_eq_zero.mp hlen0
      have hall : ∀ subj ∈ available, subj.subject_id ∈ enrolledIds := by
        intro subj hsubj
        have hf := List.filter_eq_nil_iff.mp hnil subj hsubj
        have hc : enrolledIds.contains subj.subject_id = true := by
          by_contra hnc
          exact hf (by simpa using hnc)
        exact List.elem_iff.mp hc
      exact ⟨⟨fun _ => Or.inr hall, fun _ => rfl⟩, fun _ => rfl,
        fun sel h => Option.noConfusion h⟩
    · next sel hsome =>
      have hmemE : sel ∈ eligible := List.get?_mem hsome
      rw [hE, List.mem_filter] at hmemE
      obtain ⟨hav, hpred⟩ := hmemE
      have hnotin : sel.subject_id ∉ enrolledIds := by
        intro hm
        exact (by simpa using hpred : ¬ enrolledIds.contains sel.subject_id = true)
          (List.elem_iff.mpr hm)
      have hcond : ¬ (4 ≤ s.enrollments.length ∨
          sel.subject_id ∈ s.enrollments.map (fun e => e.subject_id)) := by
        rintro (hc | hm)
        · exact hcap hc
        · exact hnotin (hIds ▸ hm)
      have henroll : s.enroll sel randMark =
          ({ s with enrollments := s.enrollments ++
              [Enrollment.init s.student_id sel.subject_id none none randMark] }, true) := by
        rw [enroll_spec, if_neg hcond]
      rw [henroll]
      refine ⟨⟨fun h => Option.noConfusion h, ?_⟩,
        fun h => Option.noConfusion h, ?_⟩
      · rintro (hc | hall)
        · exact absurd hc hcap
        · exact absurd (hall sel hav) hnotin
      · intro sel' hsel'
        injection hsel' with hsel'
        subst hsel'
        exact ⟨hav, hIds ▸ hnotin, rfl⟩

/-- Witness for `enroll_random_correct`: a student enrolled only in `sub1`,
offered a catalog `{sub1, sub2}`, gets exactly `sub2`'s enrollment
appended. -/
theorem enroll_random_correct_witness :
    ((Student.mk "s1" "n" "e" "h" [Enrollment.mk "s1" "sub1" 60 "P"]).enroll_random
        [Subject.mk "sub1" "A", Subject.mk "sub2" "B"] 0 70).1.enrollments =
      [Enrollment.mk "s1" "sub1" 60 "P"] ++ [Enrollment.init "s1" "sub2" none none 70] :=
  ((enroll_random_correct (Student.mk "s1" "n" "e" "h" [Enrollment.mk "s1" "sub1" 60 "P"])
      [Subject.mk "sub1" "A", Subject.mk "sub2" "B"] 0 70).2.2
    (Subject.mk "sub2" "B") (by decide)).2.2

/-! ## Authentication (`models/auth.py`)

Strings in the hashing pipeline are modelled as `List Char`.  The SHA-256
hex digest of `hashlib` is an external primitive and is passed in as the
function parameter `sha256hex`; the salt produced by
`secrets.token_hex(16)` is passed in as the parameter `salt`.  Python's
`str.split(':')` is embedded as `splitColon`. -/

/-- Python `s.split(':')`: cut the character list at every colon.  The
result always has one more piece than the number of colons, and is `[s]`
when `s` has no colon. -/
def splitColon (s : List Char) : List (List Char) :=
  match s with
  | [] => [[]]
  | c :: rest =>
      let r := splitColon rest
      if c = ':' then [] :: r
      else
        match r with
        | [] => [[c]]
        | h :: t => (c :: h) :: t

example : splitColon "ab:cd".data = ["ab".data, "cd".data] := by decide
example : splitColon "abcd".data = ["abcd".data] := by decide
example : splitColon "a:b:c".data = ["a".data, "b".data, "c".data] := by decide
example : splitColon "".data = ["".data] := by decide

/-- `splitColon` never returns the empty list of pieces. -/
theorem splitColon_ne_nil (s : List Char) : splitColon s ≠ [] := by
  match s with
  | [] => simp [splitColon]
  | c :: rest =>
      unfold splitColon
      simp only []
      split
      · simp
      · split <;> simp

/-- A colon-free list is a single piece. -/
theorem splitColon_no_colon (s : List Char) (h : ':' ∉ s) :
    splitColon s = [s] := by
  induction s with
  | nil => rfl
  | cons c rest ih =>
      have hc : c ≠ ':' := fun hc => h (hc ▸ List.mem_cons_self c rest)
      have hrest : ':' ∉ rest := fun hm => h (List.mem_cons_of_mem c hm)
      unfold splitColon
      rw [if_neg hc, ih hrest]

/-- Splitting at the first colon after a colon-free prefix. -/
theorem splitColon_append (a b : List Char) (ha : ':' ∉ a) :
    splitColon (a ++ ':' :: b) = a :: splitColon b := by
  induction a with
  | nil => simp [splitColon]
  | cons c rest ih =>
      have hc : c ≠ ':' := fun hc => ha (hc ▸ List.mem_cons_self c rest)
      have hrest : ':' ∉ rest := fun hm => ha (List.mem_cons_of_mem c hm)
      rw [List.cons_append]
      conv_lhs => rw [splitColon]
      rw [if_neg hc, ih hrest]

/-- The number of pieces is one more than the number of colons. -/
theorem splitColon_length (s : List Char) :
    (splitColon s).length = s.count ':' + 1 := by
  induction s with
  | nil => rfl
  | cons c rest ih =>
      unfold splitColon
      by_cases hc : c = ':'
      · rw [if_pos hc]
        simp [List.count_cons, hc, ih]
      · rw [if_neg hc]
        have hne := splitColon_ne_nil rest
        match hr : splitColon rest with
        | [] => exact absurd hr hne
        | h :: t =>
            rw [hr] at ih
            simp only [List.length_cons] at ih ⊢
            have : (c :: rest).count ':' = rest.count ':' := by
              simp [List.count_cons, Ne.symm hc]
            omega

/-- `AuthenticationService.hash_password(password)`: produce
`salt:digest` where `digest` is the SHA-256 hex digest of
`password + salt`.  `sha256hex` models `hashlib.sha256(...).hexdigest()`
and `salt` models the `secrets.token_hex(16)` draw. -/
def hash_password (sha256hex : List Char → List Char) (salt password : List Char) :
    List Char :=
  salt ++ ':' :: sha256hex (password ++ salt)

/-- `AuthenticationService.verify_password(password, hashed_password)`:
split the stored value on colons; unless it has exactly two pieces the
unpacking raises `ValueError`, caught to return `False`; otherwise
recompute the digest with the extracted salt and compare. -/
def verify_password (sha256hex : List Char → List Char)
    (password hashed : List Char) : Bool :=
  match splitColon hashed with
  | [salt, digest] => sha256hex (password ++ salt) == digest
  | _ => false

/-- C3: provided the salt and the digests are colon-free (they are hex
strings) and the digest function is collision-free (injective — the ideal
model of SHA-256), verifying the original password against its own hash
succeeds and verifying any other password against it fails. -/
theorem verify_hash_roundtrip (sha256hex : List Char → List Char)
    (salt p p' : List Char) (hsalt : ':' ∉ salt)
    (hdig : ∀ s, ':' ∉ sha256hex s) (hinj : Function.Injective sha256hex) :
    verify_password sha256hex p (hash_password sha256hex salt p) = true ∧
    (p' ≠ p → verify_password sha256hex p' (hash_password sha256hex salt p) = false) := by
  have hsplit : splitColon (salt ++ ':' :: sha256hex (p ++ salt)) =
      [salt, sha256hex (p ++ salt)] := by
    rw [splitColon_append salt _ hsalt, splitColon_no_colon _ (hdig _)]
  unfold verify_password hash_password
  rw [hsplit]
  refine ⟨by simp, fun hne => ?_⟩
  simp only [beq_eq_false_iff_ne, ne_eq]
  intro heq
  exact hne (List.append_cancel_right (hinj heq))

/-- A concrete colon-free injective digest function used to instantiate the
`sha256hex` parameter: encode each character as a fixed-width pair over a
colon-free alphabet. -/
def encChar (c : Char) : List Char :=
  if c = ':' then ['#', '#'] else ['$', c]

/-- Digest by concatenating the per-character encodings. -/
def pairDigest (s : List Char) : List Char :=
  s.flatMap encChar

theorem encChar_length (c : Char) : (encChar c).length = 2 := by
  unfold encChar; split <;> rfl

theorem encChar_ne_colon (c x : Char) (hx : x ∈ encChar c) : x ≠ ':' := by
  unfold encChar at hx
  split at hx
  · cases hx with
    | head => decide
    | tail _ h2 =>
        cases h2 with
        | head => decide
        | tail _ h3 => cases h3
  · next hc =>
      cases hx with
      | head => decide
      | tail _ h2 =>
          cases h2 with
          | head => exact hc
          | tail _ h3 => cases h3

theorem encChar_inj (c d : Char) (h : encChar c = encChar d) : c = d := by
  unfold encChar at h
  split_ifs at h with h1 h2 h2
  · rw [h1, h2]
  · exact absurd (List.head_eq_of_cons_eq h) (by decide)
  · exact absurd (List.head_eq_of_cons_eq h) (by decide)
  · exact List.head_eq_of_cons_eq (List.tail_eq_of_cons_eq h)

theorem pairDigest_colon_free (s : List Char) : ':' ∉ pairDigest s := by
  intro hm
  unfold pairDigest at hm
  rw [List.mem_flatMap] at hm
  obtain ⟨c, _, hc⟩ := hm
  exact encChar_ne_colon c ':' hc rfl

theorem pairDigest_injective : Function.Injective pairDigest := by
  intro a b h
  induction a generalizing b with
  | nil =>
      cases b with
      | nil => rfl
      | cons d bs =>
          exfalso
          have := congrArg List.length h
          simp [pairDigest, encChar_length] at this
          omega
  | cons c as ih =>
      cases b with
      | nil =>
          exfalso
          have := congrArg List.length h
          simp [pairDigest, encChar_length] at this
      | cons d bs =>
          unfold pairDigest at h
          rw [List.flatMap_cons, List.flatMap_cons] at h
          have hlen : (encChar c).length = (encChar d).length := by
            rw [encChar_length, encChar_length]
          obtain ⟨h1, h2⟩ := List.append_inj h hlen
          have h3 : as = bs := ih h2
          rw [encChar_inj c d h1, h3]

/-- Witness for `verify_hash_roundtrip`: with the colon-free injective
digest `pairDigest` and salt `"abcd"`, the password `"pw"` verifies against
its own hash and the different password `"pw2"` does not. -/
theorem verify_hash_roundtrip_witness :
    verify_password pairDigest "pw".data (hash_password pairDigest "abcd".data "pw".data) = true ∧
    verify_password pairDigest "pw2".data (hash_password pairDigest "abcd".data "pw".data) = false := by
  have h := verify_hash_roundtrip pairDigest "abcd".data "pw".data "pw2".data
    (by decide) pairDigest_colon_free pairDigest_injective
  exact ⟨h.1, h.2 (by decide)⟩

/-- C9: whenever the stored value does not contain exactly one colon — so
it is not of the form `salt:digest` with colon-free pieces —
`verify_password` returns `false` (the `ValueError` of the tuple unpacking
is caught; in the total Lean model no exception can escape). -/
theorem verify_password_malformed (sha256hex : List Char → List Char)
    (p stored : List Char) (h : stored.count ':' ≠ 1) :
    verify_password sha256hex p stored = false := by
  have hlen := splitColon_length stored
  unfold verify_password
  generalize hsp : splitColon stored = parts
  rw [hsp] at hlen
  match parts, hlen with
  | [], _ => rfl
  | [a], _ => rfl
  | [a, b], hlen =>
      exfalso
      apply h
      have h2 : (2 : Nat) = stored.count ':' + 1 := by simpa using hlen
      omega
  | a :: b :: c :: t, _ => rfl

/-- Witness for `verify_password_malformed`: a stored value with no colon
and one with two colons both fail verification. -/
theorem verify_password_malformed_witness :
    verify_password pairDigest "pw".data "saltdigest".data = false ∧
    verify_password pairDigest "pw".data "a:b:c".data = false :=
  ⟨verify_password_malformed pairDigest "pw".data "saltdigest".data (by decide),
   verify_password_malformed pairDigest "pw".data "a:b:c".data (by decide)⟩

/-! ## Validation (`models/validation.py`), C6

`ValidationService.validate_password` is
`bool(re.match(r'^[A-Z][a-zA-Z]{4,}\d{3,}$', password))`.  The classes
`[A-Z]`, `[a-zA-Z]`, `\d` are modelled by `Char.isUpper`, `Char.isAlpha`,
`Char.isDigit` (ASCII).  Because `[a-zA-Z]` and `\d` are disjoint and `\n`
belongs to neither, the regex match is equivalent to the deterministic scan
below: an uppercase first character, the maximal run of further letters
(at least 4), the maximal run of digits (at least 3), then the match
position of `$` — which in Python `re` is the end of the string *or just
before one trailing newline*. -/

/-- Compiled form of `re.match(r'^[A-Z][a-zA-Z]{4,}\d{3,}$', password)`
converted to `bool`. -/
def validate_password (password : String) : Bool :=
  match password.data with
  | [] => false
  | c :: rest =>
      let letters := rest.takeWhile Char.isAlpha
      let rest2 := rest.dropWhile Char.isAlpha
      let digits := rest2.takeWhile Char.isDigit
      let rest3 := rest2.dropWhile Char.isDigit
      c.isUpper && decide (4 ≤ letters.length) && decide (3 ≤ digits.length) &&
        (decide (rest3 = []) || decide (rest3 = ['\n']))

example : validate_password "Abcde123" = true := by decide
example : validate_password "abcde123" = false := by decide
example : validate_password "Ab1" = false := by decide
example : validate_password "Ab1c23de" = false := by decide
example : validate_password "Abcd123" = false := by decide
example : validate_password "Abcdefgh1234" = true := by decide

/-- The password shape as the claim words it: an uppercase letter, then at
least four more letters, then at least three digits, with all letters
strictly before all digits, and nothing else. -/
def password_shape (s : List Char) : Prop :=
  ∃ c letters digits, s = c :: (letters ++ digits) ∧ c.isUpper = true ∧
    (∀ x ∈ letters, x.isAlpha = true) ∧ 4 ≤ letters.length ∧
    (∀ x ∈ digits, x.isDigit = true) ∧ 3 ≤ digits.length

/-- An ASCII digit is not an ASCII letter. -/
theorem isDigit_not_isAlpha (c : Char) (h : c.isDigit = true) :
    c.isAlpha = false := by
  simp only [Char.isDigit, Char.isAlpha, Char.isUpper, Char.isLower,
    decide_eq_true_eq, Bool.and_eq_true, Bool.or_eq_false_iff,
    Bool.and_eq_false_iff] at *
  obtain ⟨h1, h2⟩ := h
  have h2' : c.val.toNat ≤ 57 := h2
  constructor
  · left
    simp only [decide_eq_false_iff_not]
    intro h3
    have h3' : 65 ≤ c.val.toNat := h3
    omega
  · left
    simp only [decide_eq_false_iff_not]
    intro h3
    have h3' : 97 ≤ c.val.toNat := h3
    omega

/-- `takeWhile` keeps a list all of whose elements satisfy the predicate. -/
theorem takeWhile_all (p : Char → Bool) (l : List Char)
    (h : ∀ x ∈ l, p x = true) : l.takeWhile p = l := by
  induction l with
  | nil => rfl
  | cons x xs ih =>
      simp [List.takeWhile_cons, h x (List.mem_cons_self x xs),
        ih fun y hy => h y (List.mem_cons_of_mem x hy)]

/-- `dropWhile` drops a list all of whose elements satisfy the predicate. -/
theorem dropWhile_all (p : Char → Bool) (l : List Char)
    (h : ∀ x ∈ l, p x = true) : l.dropWhile p = [] := by
  induction l with
  | nil => rfl
  | cons x xs ih =>
      simp [List.dropWhile_cons, h x (List.mem_cons_self x xs),
        ih fun y hy => h y (List.mem_cons_of_mem x hy)]

/-- C6 counterexample: `validate_password` accepts `"Abcde123\n"` — Python's
`$` also matches before a trailing newline — although that string does not
consist of letters followed by digits. -/
theorem validate_password_newline_counterexample :
    validate_password "Abcde123\n" = true ∧
    ¬ password_shape "Abcde123\n".data := by
  refine ⟨by decide, ?_⟩
  rintro ⟨c, letters, digits, heq, hup, hletters, hlen4, hdigits, hlen3⟩
  have hmem : '\n' ∈ "Abcde123\n".data := by decide
  rw [heq] at hmem
  rcases List.mem_cons.mp hmem with hc | hm
  · rw [← hc] at hup
    exact absurd hup (by decide)
  · rcases List.mem_append.mp hm with hl | hd
    · exact absurd (hletters _ hl) (by decide)
    · exact absurd (hdigits _ hd) (by decide)

/-- C6 (amended): `validate_password` accepts exactly the strings of the
claimed shape — an uppercase letter, at least four more letters, at least
three digits — possibly followed by one trailing newline (the Python `$`
anchor also matches just before a final newline). -/
theorem validate_password_characterization (s : String) :
    validate_password s = true ↔
      (password_shape s.data ∨
        ∃ t, s.data = t ++ ['\n'] ∧ password_shape t) := by
  constructor
  · intro h
    unfold validate_password at h
    match hd : s.data with
    | [] => rw [hd] at h; exact absurd h (by decide)
    | c :: rest =>
        rw [hd] at h
        simp only [Bool.and_eq_true, Bool.or_eq_true, decide_eq_true_eq] at h
        obtain ⟨⟨⟨hup, h4⟩, h3⟩, hend⟩ := h
        have hsplit1 : rest.takeWhile Char.isAlpha ++ rest.dropWhile Char.isAlpha = rest :=
          List.takeWhile_append_dropWhile Char.isAlpha rest
        have hsplit2 : (rest.dropWhile Char.isAlpha).takeWhile Char.isDigit ++
            (rest.dropWhile Char.isAlpha).dropWhile Char.isDigit =
            rest.dropWhile Char.isAlpha :=
          List.takeWhile_append_dropWhile Char.isDigit (rest.dropWhile Char.isAlpha)
        have hletters : ∀ x ∈ rest.takeWhile Char.isAlpha, x.isAlpha = true :=
          fun x hx => List.mem_takeWhile_imp hx
        have hdigits : ∀ x ∈ (rest.dropWhile Char.isAlpha).takeWhile Char.isDigit,
            x.isDigit = true :=
          fun x hx => List.mem_takeWhile_imp hx
        rcases hend with hnil | hnl
        · left
          refine ⟨c, rest.takeWhile Char.isAlpha,
            (rest.dropWhile Char.isAlpha).takeWhile Char.isDigit,
            ?_, hup, hletters, h4, hdigits, h3⟩
          rw [hnil, List.append_nil] at hsplit2
          rw [hsplit2, hsplit1]
        · right
          refine ⟨c :: (rest.takeWhile Char.isAlpha ++
              (rest.dropWhile Char.isAlpha).takeWhile Char.isDigit), ?_,
            c, rest.takeWhile Char.isAlpha,
            (rest.dropWhile Char.isAlpha).takeWhile Char.isDigit,
            rfl, hup, hletters, h4, hdigits, h3⟩
          rw [List.cons_append, List.append_assoc, ← hnl, hsplit2, hsplit1]
  · intro h
    have key : ∀ (c : Char) (letters digits tail : List Char),
        c.isUpper = true → (∀ x ∈ letters, x.isAlpha = true) →
        4 ≤ letters.length → (∀ x ∈ digits, x.isDigit = true) →
        3 ≤ digits.length → (tail = [] ∨ tail = ['\n']) →
        s.data = c :: (letters ++ (digits ++ tail)) →
        validate_password s = true := by
      intro c letters digits tail hup hletters h4 hdigits h3 htail heq
      unfold validate_password
      rw [heq]
      match digits, hdigits, h3 with
      | d :: ds, hdigits, h3 =>
          have hdall : ∀ x ∈ d :: ds, Char.isDigit x = true := hdigits
          have hdna : Char.isAlpha d = false :=
            isDigit_not_isAlpha d (hdall d (List.mem_cons_self d ds))
          have hnlDigit : Char.isDigit '\n' = false := by decide
          have htake1 : (letters ++ ((d :: ds) ++ tail)).takeWhile Char.isAlpha = letters := by
            rw [List.takeWhile_append_of_pos hletters, List.cons_append,
              List.takeWhile_cons, hdna]
            simp
          have hdrop1 : (letters ++ ((d :: ds) ++ tail)).dropWhile Char.isAlpha =
              (d :: ds) ++ tail := by
            rw [List.dropWhile_append_of_pos hletters, List.cons_append,
              List.dropWhile_cons, hdna]
            simp
          have htake2 : ((d :: ds) ++ tail).takeWhile Char.isDigit = d :: ds := by
            rw [List.takeWhile_append_of_pos hdall]
            rcases htail with h | h <;> rw [h]
            · simp
            · simp [List.takeWhile_cons, hnlDigit]
          have hdrop2 : ((d :: ds) ++ tail).dropWhile Char.isDigit = tail := by
            rw [List.dropWhile_append_of_pos hdall]
            rcases htail with h | h <;> rw [h]
            · rfl
            · simp [List.dropWhile_cons, hnlDigit]
          simp only [htake1, hdrop1, htake2, hdrop2,
            Bool.and_eq_true, Bool.or_eq_true, decide_eq_true_eq]
          refine ⟨⟨⟨hup, h4⟩, by simpa using h3⟩, ?_⟩
          rcases htail with h | h
          · exact Or.inl h
          · exact Or.inr h
    rcases h with ⟨c, letters, digits, heq, hup, hletters, h4, hdigits, h3⟩ |
      ⟨t, ht, c, letters, digits, heq, hup, hletters, h4, hdigits, h3⟩
    · exact key c letters digits [] hup hletters h4 hdigits h3 (Or.inl rfl)
        (by rw [heq, List.append_nil])
    · exact key c letters digits ['\n'] hup hletters h4 hdigits h3 (Or.inr rfl)
        (by rw [ht, heq, List.cons_append, List.append_assoc])

/-! ## Admin aggregation (`models/admin.py`), C5 and C10 -/

/-- The record dict appended by `Admin.view_by_grade` (the Python code
stores `str(mark)`; the integer carries the same information). -/
structure GradeRecord where
  student_id : String
  name : String
  subject_id : String
  mark : Int
  grade : String
  deriving DecidableEq, Repr

def mkGradeRecord (st : Student) (e : Enrollment) : GradeRecord :=
  { student_id := st.student_id, name := st.name, subject_id := e.subject_id,
    mark := e.mark, grade := e.grade }

/-- The `grade_groups` dict of `view_by_grade`, with its five fixed keys. -/
structure GradeGroups where
  z : List GradeRecord
  p : List GradeRecord
  c : List GradeRecord
  d : List GradeRecord
  hd : List GradeRecord
  deriving DecidableEq, Repr

/-- The loop body of `view_by_grade`: `if grade in grade_groups:` append to
that bucket — an enrollment whose grade is none of the five keys is
silently skipped. -/
def addToGroup (groups : GradeGroups) (st : Student) (e : Enrollment) :
    GradeGroups :=
  if e.grade = "Z" then { groups with z := groups.z ++ [mkGradeRecord st e] }
  else if e.grade = "P" then { groups with p := groups.p ++ [mkGradeRecord st e] }
  else if e.grade = "C" then { groups with c := groups.c ++ [mkGradeRecord st e] }
  else if e.grade = "D" then { groups with d := groups.d ++ [mkGradeRecord st e] }
  else if e.grade = "HD" then { groups with hd := groups.hd ++ [mkGradeRecord st e] }
  else groups

/-- `Admin.view_by_grade(students)`: bucket every (student, enrollment)
pair by the enrollment's grade. -/
def view_by_grade (students : List Student) : GradeGroups :=
  students.foldl
    (fun groups st => st.enrollments.foldl (fun g e => addToGroup g st e) groups)
    ⟨[], [], [], [], []⟩

/-- Total number of records across the five buckets. -/
def totalRecords (g : GradeGroups) : Nat :=
  g.z.length + g.p.length + g.c.length + g.d.length + g.hd.length

/-- Total number of enrollments over a roster. -/
def totalEnrollments (students : List Student) : Nat :=
  (students.map (fun st => st.enrollments.length)).sum

/-- C5 counterexample: a roster holding one enrollment whose grade string is
`"X"` (constructible — the data loader passes the stored grade verbatim to
`Enrollment`) has 1 enrollment but 0 bucketed records: `view_by_grade` drops
pairs whose grade is not one of the five keys. -/
theorem view_by_grade_drop_counterexample :
    totalRecords (view_by_grade
        [Student.mk "s1" "n" "e" "h" [Enrollment.mk "s1" "sub1" 70 "X"]]) = 0 ∧
    totalEnrollments
        [Student.mk "s1" "n" "e" "h" [Enrollment.mk "s1" "sub1" 70 "X"]] = 1 := by
  constructor <;> decide

/-- A graded step adds exactly one record to the buckets. -/
theorem addToGroup_total (g : GradeGroups) (st : Student) (e : Enrollment)
    (h : e.grade = "Z" ∨ e.grade = "P" ∨ e.grade = "C" ∨ e.grade = "D" ∨
      e.grade = "HD") :
    totalRecords (addToGroup g st e) = totalRecords g + 1 := by
  rcases h with h | h | h | h | h <;>
    simp [addToGroup, totalRecords, h] <;> omega

/-- Folding the bucket step over one student's enrollments adds one record
per enrollment, provided all grades are among the five keys. -/
theorem foldl_addToGroup_total (st : Student) (es : List Enrollment)
    (g : GradeGroups)
    (h : ∀ e ∈ es, e.grade = "Z" ∨ e.grade = "P" ∨ e.grade = "C" ∨
      e.grade = "D" ∨ e.grade = "HD") :
    totalRecords (es.foldl (fun g e => addToGroup g st e) g) =
      totalRecords g + es.length := by
  induction es generalizing g with
  | nil => rfl
  | cons e rest ih =>
      rw [List.foldl_cons, ih _ (fun x hx => h x (List.mem_cons_of_mem e hx)),
        addToGroup_total g st e (h e (List.mem_cons_self e rest)),
        List.length_cons]
      omega

/-- C5 (amended): whenever every enrollment's grade is one of Z, P, C, D,
HD — as holds for any grade computed by `calculate_grade` — `view_by_grade`
places every (student, enrollment) pair in a bucket, so the total number of
records across the five buckets equals the total number of enrollments; an
enrollment carrying any other grade string is dropped. -/
theorem view_by_grade_total (students : List Student)
    (h : ∀ st ∈ students, ∀ e ∈ st.enrollments,
      e.grade = "Z" ∨ e.grade = "P" ∨ e.grade = "C" ∨ e.grade = "D" ∨
        e.grade = "HD") :
    totalRecords (view_by_grade students) = totalEnrollments students := by
  suffices key : ∀ (ss : List Student) (g : GradeGroups),
      (∀ st ∈ ss, ∀ e ∈ st.enrollments,
        e.grade = "Z" ∨ e.grade = "P" ∨ e.grade = "C" ∨ e.grade = "D" ∨
          e.grade = "HD") →
      totalRecords (ss.foldl
        (fun groups st => st.enrollments.foldl (fun g e => addToGroup g st e) groups) g) =
        totalRecords g + totalEnrollments ss by
    have h2 := key students ⟨[], [], [], [], []⟩ h
    simpa [view_by_grade, totalRecords] using h2
  intro ss
  induction ss with
  | nil => intro g _; simp [totalEnrollments]
  | cons st rest ih =>
      intro g hall
      rw [List.foldl_cons,
        ih _ (fun x hx => hall x (List.mem_cons_of_mem st hx)),
        foldl_addToGroup_total st st.enrollments g
          (hall st (List.mem_cons_self st rest))]
      simp [totalEnrollments]
      omega

/-- Witness for `view_by_grade_total`: a two-enrollment roster with grades
among the five keys buckets both records. -/
theorem view_by_grade_total_witness :
    totalRecords (view_by_grade
      [Student.mk "s1" "n" "e" "h"
        [Enrollment.mk "s1" "sub1" 70 "C", Enrollment.mk "s1" "sub2" 30 "Z"]]) =
    totalEnrollments
      [Student.mk "s1" "n" "e" "h"
        [Enrollment.mk "s1" "sub1" 70 "C", Enrollment.mk "s1" "sub2" 30 "Z"]] :=
  view_by_grade_total
    [Student.mk "s1" "n" "e" "h"
      [Enrollment.mk "s1" "sub1" 70 "C", Enrollment.mk "s1" "sub2" 30 "Z"]]
    (by decide)

/-- The record dict appended by `Admin.categorize_pass_fail`. -/
structure PassFailRecord where
  student_id : String
  name : String
  subject_id : String
  mark : Int
  grade : String
  status : String
  deriving DecidableEq, Repr

def mkPassFailRecord (st : Student) (e : Enrollment) (status : String) :
    PassFailRecord :=
  { student_id := st.student_id, name := st.name, subject_id := e.subject_id,
    mark := e.mark, grade := e.grade, status := status }

/-- The PASS/FAIL accumulator of `categorize_pass_fail`. -/
structure PassFail where
  pass : List PassFailRecord
  fail : List PassFailRecord
  deriving DecidableEq, Repr

/-- The loop body of `categorize_pass_fail`: `mark >= 50` goes to PASS,
anything else to FAIL. -/
def categorize_step (st : Student) (acc : PassFail) (e : Enrollment) :
    PassFail :=
  if e.mark ≥ 50 then
    { acc with pass := acc.pass ++ [mkPassFailRecord st e "PASS"] }
  else
    { acc with fail := acc.fail ++ [mkPassFailRecord st e "FAIL"] }

/-- `Admin.categorize_pass_fail(students)`. -/
def categorize_pass_fail (students : List Student) : PassFail :=
  students.foldl
    (fun acc st => st.enrollments.foldl (categorize_step st) acc) ⟨[], []⟩

/-- Every record of the inner fold's PASS bucket was in the accumulator or
comes from an enrollment with mark ≥ 50; dually for FAIL with mark < 50. -/
theorem categorize_foldl_mem (st : Student) (es : List Enrollment)
    (acc : PassFail) :
    (∀ r ∈ (es.foldl (categorize_step st) acc).pass,
      r ∈ acc.pass ∨ ∃ e ∈ es, 50 ≤ e.mark ∧ r = mkPassFailRecord st e "PASS") ∧
    (∀ r ∈ (es.foldl (categorize_step st) acc).fail,
      r ∈ acc.fail ∨ ∃ e ∈ es, e.mark < 50 ∧ r = mkPassFailRecord st e "FAIL") := by
  induction es generalizing acc with
  | nil => exact ⟨fun r hr => Or.inl hr, fun r hr => Or.inl hr⟩
  | cons e rest ih =>
      rw [List.foldl_cons]
      refine ⟨fun r hr => ?_, fun r hr => ?_⟩
      · rcases (ih (categorize_step st acc e)).1 r hr with hin | ⟨e', he', hm, hr'⟩
        · unfold categorize_step at hin
          split at hin
          · next hmark =>
            rcases List.mem_append.mp hin with hold | hnew
            · exact Or.inl hold
            · exact Or.inr ⟨e, List.mem_cons_self e rest, hmark,
                (List.mem_singleton.mp hnew)⟩
          · exact Or.inl hin
        · exact Or.inr ⟨e', List.mem_cons_of_mem e he', hm, hr'⟩
      · rcases (ih (categorize_step st acc e)).2 r hr with hin | ⟨e', he', hm, hr'⟩
        · unfold categorize_step at hin
          split at hin
          · exact Or.inl hin
          · next hmark =>
            rcases List.mem_append.mp hin with hold | hnew
            · exact Or.inl hold
            · exact Or.inr ⟨e, List.mem_cons_self e rest, by omega,
                (List.mem_singleton.mp hnew)⟩
        · exact Or.inr ⟨e', List.mem_cons_of_mem e he', hm, hr'⟩

/-- Every PASS record of `categorize_pass_fail` comes from a roster
enrollment with mark ≥ 50; every FAIL record from one with mark < 50. -/
theorem categorize_mem (students : List Student) :
    (∀ r ∈ (categorize_pass_fail students).pass,
      ∃ st ∈ students, ∃ e ∈ st.enrollments, 50 ≤ e.mark ∧
        r = mkPassFailRecord st e "PASS") ∧
    (∀ r ∈ (categorize_pass_fail students).fail,
      ∃ st ∈ students, ∃ e ∈ st.enrollments, e.mark < 50 ∧
        r = mkPassFailRecord st e "FAIL") := by
  suffices key : ∀ (ss : List Student) (acc : PassFail),
      (∀ r ∈ (ss.foldl (fun a st => st.enrollments.foldl (categorize_step st) a) acc).pass,
        r ∈ acc.pass ∨ ∃ st ∈ ss, ∃ e ∈ st.enrollments, 50 ≤ e.mark ∧
          r = mkPassFailRecord st e "PASS") ∧
      (∀ r ∈ (ss.foldl (fun a st => st.enrollments.foldl (categorize_step st) a) acc).fail,
        r ∈ acc.fail ∨ ∃ st ∈ ss, ∃ e ∈ st.enrollments, e.mark < 50 ∧
          r = mkPassFailRecord st e "FAIL") by
    have h2 := key students ⟨[], []⟩
    constructor
    · intro r hr
      rcases h2.1 r hr with hin | hfound
      · exact absurd hin (List.not_mem_nil r)
      · exact hfound
    · intro r hr
      rcases h2.2 r hr with hin | hfound
      · exact absurd hin (List.not_mem_nil r)
      · exact hfound
  intro ss
  induction ss with
  | nil => exact fun acc => ⟨fun r hr => Or.inl hr, fun r hr => Or.inl hr⟩
  | cons st rest ih =>
      intro acc
      rw [List.foldl_cons]
      refine ⟨fun r hr => ?_, fun r hr => ?_⟩
      · rcases (ih _).1 r hr with hin | ⟨st', hst', hfound⟩
        · rcases (categorize_foldl_mem st st.enrollments acc).1 r hin with
            hold | ⟨e, he, hm, hr'⟩
          · exact Or.inl hold
          · exact Or.inr ⟨st, List.mem_cons_self st rest, e, he, hm, hr'⟩
        · exact Or.inr ⟨st', List.mem_cons_of_mem st hst', hfound⟩
      · rcases (ih _).2 r hr with hin | ⟨st', hst', hfound⟩
        · rcases (categorize_foldl_mem st st.enrollments acc).2 r hin with
            hold | ⟨e, he, hm, hr'⟩
          · exact Or.inl hold
          · exact Or.inr ⟨st, List.mem_cons_self st rest, e, he, hm, hr'⟩
        · exact Or.inr ⟨st', List.mem_cons_of_mem st hst', hfound⟩

/-- Each inner-fold step adds exactly one record to PASS ∪ FAIL. -/
theorem categorize_foldl_length (st : Student) (es : List Enrollment)
    (acc : PassFail) :
    (es.foldl (categorize_step st) acc).pass.length +
      (es.foldl (categorize_step st) acc).fail.length =
      acc.pass.length + acc.fail.length + es.length := by
  induction es generalizing acc with
  | nil => rfl
  | cons e rest ih =>
      rw [List.foldl_cons, ih (categorize_step st acc e)]
      unfold categorize_step
      split <;> simp <;> omega

/-- `categorize_pass_fail` places every (student, enrollment) pair into
exactly one of the two buckets. -/
theorem categorize_length (students : List Student) :
    (categorize_pass_fail students).pass.length +
      (categorize_pass_fail students).fail.length =
      totalEnrollments students := by
  suffices key : ∀ (ss : List Student) (acc : PassFail),
      (ss.foldl (fun a st => st.enrollments.foldl (categorize_step st) a) acc).pass.length +
        (ss.foldl (fun a st => st.enrollments.foldl (categorize_step st) a) acc).fail.length =
        acc.pass.length + acc.fail.length + totalEnrollments ss by
    have h2 := key students ⟨[], []⟩
    simpa [categorize_pass_fail, totalEnrollments] using h2
  intro ss
  induction ss with
  | nil => intro acc; simp [totalEnrollments]
  | cons st rest ih =>
      intro acc
      rw [List.foldl_cons, ih _, categorize_foldl_length st st.enrollments acc]
      simp [totalEnrollments]
      omega

/-- Marks in `[50,100]` grade to one of P, C, D, HD. -/
theorem calculate_grade_ge50 (m : Int) (h0 : 0 ≤ m) (h100 : m ≤ 100)
    (h50 : 50 ≤ m) :
    calculate_grade m = "P" ∨ calculate_grade m = "C" ∨
    calculate_grade m = "D" ∨ calculate_grade m = "HD" := by
  rw [calculate_grade_eq]
  split_ifs <;> simp_all <;> omega

/-- Marks in `[0,50)` grade to Z. -/
theorem calculate_grade_lt50 (m : Int) (h0 : 0 ≤ m) (h50 : m < 50) :
    calculate_grade m = "Z" := by
  rw [calculate_grade_eq]
  split_ifs <;> simp_all <;> omega

/-- C10: on `[0,100]`, a mark is ≥ 50 exactly when its grade is not Z;
hence for a roster whose enrollment grades are derived from their marks,
`categorize_pass_fail` puts a pair in PASS exactly when its grade is one of
P, C, D, HD, in FAIL exactly when its grade is Z, and every pair lands in
one of the two buckets. -/
theorem pass_fail_consistent (students : List Student)
    (h : ∀ st ∈ students, ∀ e ∈ st.enrollments,
      0 ≤ e.mark ∧ e.mark ≤ 100 ∧ e.grade = calculate_grade e.mark) :
    (∀ m : Int, 0 ≤ m → m ≤ 100 → (50 ≤ m ↔ calculate_grade m ≠ "Z")) ∧
    (∀ r ∈ (categorize_pass_fail students).pass,
      r.grade = "P" ∨ r.grade = "C" ∨ r.grade = "D" ∨ r.grade = "HD") ∧
    (∀ r ∈ (categorize_pass_fail students).fail, r.grade = "Z") ∧
    (categorize_pass_fail students).pass.length +
      (categorize_pass_fail students).fail.length =
      totalEnrollments students := by
  refine ⟨?_, ?_, ?_, categorize_length students⟩
  · intro m h0 h100
    constructor
    · intro h50 hz
      rcases calculate_grade_ge50 m h0 h100 h50 with hg | hg | hg | hg <;>
        rw [hg] at hz <;> simp at hz
    · intro hnz
      by_contra hlt
      exact hnz (calculate_grade_lt50 m h0 (by omega))
  · intro r hr
    obtain ⟨st, hst, e, he, hm, hr'⟩ := (categorize_mem students).1 r hr
    obtain ⟨h0, h100, hg⟩ := h st hst e he
    have hge : r.grade = e.grade := by rw [hr']; rfl
    rw [hge, hg]
    exact calculate_grade_ge50 e.mark h0 h100 hm
  · intro r hr
    obtain ⟨st, hst, e, he, hm, hr'⟩ := (categorize_mem students).2 r hr
    obtain ⟨h0, h100, hg⟩ := h st hst e he
    have hge : r.grade = e.grade := by rw [hr']; rfl
    rw [hge, hg]
    exact calculate_grade_lt50 e.mark h0 hm

/-- Witness for `pass_fail_consistent`: a concrete roster with derived
grades, one passing and one failing enrollment. -/
theorem pass_fail_consistent_witness :
    (categorize_pass_fail
        [Student.mk "s1" "n" "e" "h"
          [Enrollment.mk "s1" "sub1" 70 "C", Enrollment.mk "s1" "sub2" 30 "Z"]]).pass.length +
      (categorize_pass_fail
        [Student.mk "s1" "n" "e" "h"
          [Enrollment.mk "s1" "sub1" 70 "C", Enrollment.mk "s1" "sub2" 30 "Z"]]).fail.length =
      totalEnrollments
        [Student.mk "s1" "n" "e" "h"
          [Enrollment.mk "s1" "sub1" 70 "C", Enrollment.mk "s1" "sub2" 30 "Z"]] :=
  (pass_fail_consistent
    [Student.mk "s1" "n" "e" "h"
      [Enrollment.mk "s1" "sub1" 70 "C", Enrollment.mk "s1" "sub2" 30 "Z"]]
    (by decide)).2.2.2

/-! ## Sessions (`models/session.py`, `models/session_manager.py`), C8

`datetime.now()` is modelled by an explicit integer timestamp `now`; the
singleton `_current_session` slot becomes an explicit `Option Session`
state, and `get_current_session` returns the updated slot paired with its
result. -/

/-- `UserRole` (`models/enum/roles.py`). -/
inductive UserRole where
  | student
  | admin
  deriving DecidableEq, Repr

/-- `Session`: the random `session_id` token plays no role in the claims
and is omitted; timestamps are integers. -/
structure Session where
  user_id : String
  user_role : UserRole
  user_name : String
  created_at : Int
  expires_at : Int
  is_active : Bool
  deriving DecidableEq, Repr

/-- `Session.is_valid()`: the active flag is set and the current time is
strictly before the expiry timestamp. -/
def Session.is_valid (s : Session) (now : Int) : Bool :=
  s.is_active && decide (now < s.expires_at)

/-- `SessionManager.get_current_session()`: if a session is stored and
valid, return it (slot unchanged); if a session is stored but invalid,
clear the slot and return nothing; if no session is stored, return
nothing.  Result: (new slot state, returned value). -/
def get_current_session (current : Option Session) (now : Int) :
    Option Session × Option Session :=
  match current with
  | some s => if s.is_valid now then (some s, some s) else (none, none)
  | none => (none, none)

/-- C8: `get_current_session` returns the stored session exactly when it is
active and the current time is before its expiry; in every other case it
returns nothing with the slot cleared, so a subsequent accessor call (at
any time) also finds the slot empty and returns nothing. -/
theorem get_current_session_spec (current : Option Session) (now now2 : Int) :
    (∀ s, (get_current_session current now).2 = some s ↔
      (current = some s ∧ s.is_active = true ∧ now < s.expires_at)) ∧
    ((get_current_session current now).2 = none →
      (get_current_session current now).1 = none ∧
      get_current_session (get_current_session current now).1 now2 = (none, none)) ∧
    (∀ s, (get_current_session current now).2 = some s →
      (get_current_session current now).1 = some s) := by
  match current with
  | none =>
      refine ⟨fun s => ⟨fun h => Option.noConfusion h, ?_⟩,
        fun _ => ⟨rfl, rfl⟩, fun s h => Option.noConfusion h⟩
      rintro ⟨h, -⟩
      exact Option.noConfusion h
  | some s0 =>
      by_cases hv : s0.is_valid now = true
      · have hred : get_current_session (some s0) now = (some s0, some s0) := by
          simp [get_current_session, hv]
        rw [hred]
        unfold Session.is_valid at hv
        simp only [Bool.and_eq_true, decide_eq_true_eq] at hv
        refine ⟨fun s => ⟨fun h => ?_, fun h => ?_⟩,
          fun h => Option.noConfusion h, fun s h => h⟩
        · injection h with h
          subst h
          exact ⟨rfl, hv.1, hv.2⟩
        · obtain ⟨h1, -, -⟩ := h
          injection h1 with h1
          rw [h1]
      · have hred : get_current_session (some s0) now = (none, none) := by
          simp [get_current_session, hv]
        rw [hred]
        unfold Session.is_valid at hv
        simp only [Bool.and_eq_true, decide_eq_true_eq, not_and] at hv
        refine ⟨fun s => ⟨fun h => Option.noConfusion h, ?_⟩,
          fun _ => ⟨rfl, rfl⟩, fun s h => Option.noConfusion h⟩
        rintro ⟨h1, h2, h3⟩
        injection h1 with h1
        subst h1
        exact absurd h3 (by simpa using hv h2)

/-- Witness for `get_current_session_spec`: a session active until time
100 is returned at time 50; at time 150 the slot is cleared and a second
access still returns nothing. -/
theorem get_current_session_spec_witness :
    (get_current_session
        (some (Session.mk "u1" UserRole.student "N" 0 100 true)) 50).2 =
      some (Session.mk "u1" UserRole.student "N" 0 100 true) ∧
    (get_current_session
        (some (Session.mk "u1" UserRole.student "N" 0 100 true)) 150).1 = none ∧
    get_current_session
      (get_current_session
        (some (Session.mk "u1" UserRole.student "N" 0 100 true)) 150).1 200 =
      (none, none) := by
  refine ⟨((get_current_session_spec
      (some (Session.mk "u1" UserRole.student "N" 0 100 true)) 50 0).1
      (Session.mk "u1" UserRole.student "N" 0 100 true)).mpr
      ⟨rfl, rfl, by decide⟩, ?_⟩
  have h := (get_current_session_spec
      (some (Session.mk "u1" UserRole.student "N" 0 100 true)) 150 200).2.1
    (by decide)
  exact ⟨h.1, h.2⟩

end UniApp
